import Mathlib

/-!
# Verification of the SBOM merge engine

Shallow embedding of the merge routine `parseSBOMFiles` (src/lib/parser):
the routine reads a batch of CycloneDX SBOM JSON documents, merges their
component lists into one map keyed by component identity, accumulates
dependency edges, infers roots structurally, marks direct dependencies one
hop from roots, applies a degenerate fallback when no root is found, and
computes aggregate counts.

JavaScript `Map` and `Set` are insertion-ordered with unique keys; they are
embedded as association lists (`List (String × α)`) and duplicate-free
`List String`, with `mapGet`/`mapSet`/`mapHas`/`setAdd` mirroring
`get`/`set`/`has`/`add`.  JavaScript string truthiness (`undefined` and
`""` are falsy) is embedded by `jsTruthy`.  `JSON.parse` of a document text
is embedded by its outcome: `Option SBOMFile`, `none` meaning the text does
not parse (the loop throws at the first such input, which the embedding
reports as the index of that input).  The ambient clock read by
`new Date().toISOString()` is an explicit `now : String` argument.
-/

set_option autoImplicit false

namespace SBOM

/-- JS truthiness of an optional string: `undefined` and `""` are falsy. -/
def jsTruthy : Option String → Option String
  | none => none
  | some s => if s = "" then none else some s

/-- The inner `{id?, name?}` object of a CycloneDX license entry. -/
structure LicenseId where
  id : Option String
  name : Option String
  deriving DecidableEq, Repr

/-- One entry of a raw component's `licenses` array: `{license: {id?, name?}}`. -/
structure LicenseEntry where
  license : LicenseId
  deriving DecidableEq, Repr

/-- One entry of a raw component's `properties` array: `{name, value}`. -/
structure PropertyEntry where
  name : String
  value : String
  deriving DecidableEq, Repr

/-- A raw component record of an input document (`SBOMFile.components[]`). -/
structure RawComponent where
  bomRef : Option String
  type : String
  name : String
  version : String
  cpe : Option String
  purl : Option String
  properties : Option (List PropertyEntry)
  licenses : Option (List LicenseEntry)
  deriving DecidableEq, Repr

/-- A raw dependency edge record (`SBOMFile.dependencies[]`): `{ref, dependsOn?}`. -/
structure RawDependency where
  ref : String
  dependsOn : Option (List String)
  deriving DecidableEq, Repr

/-- The `metadata.component` object of an input document. -/
structure MetadataComponent where
  bomRef : String
  type : String
  name : String
  version : Option String
  deriving DecidableEq, Repr

/-- The `metadata` object of an input document; the merge reads it only
through optional chaining (`sbom.metadata?.timestamp`,
`sbom.metadata?.component?.name`), so both fields are optional here. -/
structure Metadata where
  timestamp : Option String
  component : Option MetadataComponent
  deriving DecidableEq, Repr

/-- An input document after `JSON.parse` (the `SBOMFile` interface).
`components` and `dependencies` are optional arrays; `bomFormat`,
`specVersion`, `serialNumber` and `version` are carried but never read by
the merge. -/
structure SBOMFile where
  bomFormat : String
  specVersion : String
  serialNumber : String
  version : Int
  metadata : Option Metadata
  components : Option (List RawComponent)
  dependencies : Option (List RawDependency)
  deriving DecidableEq, Repr

/-- Vulnerability severity levels. -/
inductive Severity where
  | critical | high | medium | low | info
  deriving DecidableEq, Repr

/-- A vulnerability annotation (never populated by the merge: the input
schema carries none, so every merged component gets `[]`). -/
structure Vulnerability where
  id : String
  severity : Severity
  description : Option String
  remediation : Option String
  deriving DecidableEq, Repr

/-- A merged component of the output model. -/
structure Component where
  id : String
  name : String
  version : String
  type : String
  purl : Option String
  license : String
  isDirect : Bool
  vulnerabilities : List Vulnerability
  dependencies : List String
  path : String
  deriving DecidableEq, Repr

/-- The merged model returned by `parseSBOMFiles` (the `ParsedSBOM`
interface); the component `Map` is embedded as an insertion-ordered
association list with unique keys. -/
structure ParsedSBOM where
  projectName : String
  timestamp : String
  components : List (String × Component)
  rootComponents : List String
  totalComponents : Nat
  directCount : Nat
  transitiveCount : Nat
  deriving DecidableEq, Repr

/-- `Map.has`. -/
def mapHas {α : Type} (m : List (String × α)) (k : String) : Bool :=
  m.any (fun p => p.1 == k)

/-- `Map.get`. -/
def mapGet {α : Type} (m : List (String × α)) (k : String) : Option α :=
  (m.find? (fun p => p.1 == k)).map (fun p => p.2)

/-- `Map.set`: updates the value in place when the key is present (keeping
its position), otherwise appends the new entry at the end. -/
def mapSet {α : Type} (m : List (String × α)) (k : String) (v : α) : List (String × α) :=
  if mapHas m k then m.map (fun p => if p.1 == k then (k, v) else p)
  else m ++ [(k, v)]

/-- `Set.add`: appends unless already present. -/
def setAdd (s : List String) (x : String) : List String :=
  if s.contains x then s else s ++ [x]

/-- Component identity key: `comp["bom-ref"] || name@version`
(a missing or empty `bom-ref` falls through to the composite). -/
def componentId (c : RawComponent) : String :=
  match jsTruthy c.bomRef with
  | some r => r
  | none => c.name ++ "@" ++ c.version

/-- License extraction:
`comp.licenses?.[0]?.license?.id || comp.licenses?.[0]?.license?.name || "Unknown"`. -/
def extractLicense (c : RawComponent) : String :=
  let lic0 := ((c.licenses.getD []).head?).map LicenseEntry.license
  match jsTruthy (lic0.bind LicenseId.id) with
  | some s => s
  | none =>
    match jsTruthy (lic0.bind LicenseId.name) with
    | some s => s
    | none => "Unknown"

/-- Path extraction: the value of the property named
`syft:location:0:path`, else `""`
(`pathProp?.value || ""`; an empty value yields `""` either way). -/
def extractPath (c : RawComponent) : String :=
  match (c.properties.getD []).find? (fun p => p.name == "syft:location:0:path") with
  | some p => p.value
  | none => ""

/-- The `Component` inserted for a raw record on its first occurrence:
`isDirect` starts `false`, `vulnerabilities` and `dependencies` empty. -/
def seedComponent (cid : String) (c : RawComponent) : Component :=
  { id := cid
    name := c.name
    version := c.version
    type := c.type
    purl := c.purl
    license := extractLicense c
    isDirect := false
    vulnerabilities := []
    dependencies := []
    path := extractPath c }

/-- Merge-step for one raw component record: insert only if the identity
key is absent (first occurrence wins; later duplicates are no-ops). -/
def addComponent (m : List (String × Component)) (c : RawComponent) : List (String × Component) :=
  let cid := componentId c
  if mapHas m cid then m else m ++ [(cid, seedComponent cid c)]

/-- Merge-step for one raw dependency edge record: when `dependsOn` is
present, union its targets into the accumulated set for `ref`. -/
def addEdge (g : List (String × List String)) (d : RawDependency) : List (String × List String) :=
  match d.dependsOn with
  | none => g
  | some targets =>
    let deps := (mapGet g d.ref).getD []
    mapSet g d.ref (targets.foldl setAdd deps)

/-- Accumulator state of the per-document merge loop. -/
structure MergeState where
  componentsMap : List (String × Component)
  dependencyGraph : List (String × List String)
  projectName : String
  timestamp : String
  deriving DecidableEq, Repr

/-- `sbom.metadata?.component?.name`. -/
def metadataName (f : SBOMFile) : Option String :=
  f.metadata.bind (fun m => m.component.map (fun c => c.name))

/-- `sbom.metadata?.timestamp`. -/
def metadataTimestamp (f : SBOMFile) : Option String :=
  f.metadata.bind Metadata.timestamp

/-- One iteration of the merge loop over documents: overwrite
`projectName` when a truthy metadata component name is present, overwrite
`timestamp` when a truthy metadata timestamp is present
(`timestamp = sbom.metadata?.timestamp || timestamp`), then fold the
document's component records and dependency edge records into the maps. -/
def processFile (st : MergeState) (f : SBOMFile) : MergeState :=
  { componentsMap := (f.components.getD []).foldl addComponent st.componentsMap
    dependencyGraph := (f.dependencies.getD []).foldl addEdge st.dependencyGraph
    projectName :=
      match jsTruthy (metadataName f) with
      | some n => n
      | none => st.projectName
    timestamp :=
      match jsTruthy (metadataTimestamp f) with
      | some t => t
      | none => st.timestamp }

/-- The initial accumulator: empty maps, `"Unknown Project"`, and the
ambient clock reading `now` (`new Date().toISOString()`). -/
def initState (now : String) : MergeState :=
  { componentsMap := []
    dependencyGraph := []
    projectName := "Unknown Project"
    timestamp := now }

/-- The accumulator after the whole per-document loop. -/
def mergeState (files : List SBOMFile) (now : String) : MergeState :=
  files.foldl processFile (initState now)

/-- The `allDependencies` set: every id appearing as a target of some
accumulated edge (the edge's `ref` need not resolve to a component). -/
def allDependencies (g : List (String × List String)) : List String :=
  g.foldl (fun acc p => p.2.foldl setAdd acc) []

/-- Edge application: for each accumulated edge whose `ref` resolves to a
component, assign that component's `dependencies` to the accumulated
target set. -/
def applyEdges (m : List (String × Component)) (g : List (String × List String)) :
    List (String × Component) :=
  g.foldl (fun acc p =>
    match mapGet acc p.1 with
    | some comp => mapSet acc p.1 { comp with dependencies := p.2 }
    | none => acc) m

/-- Structural root inference: the ids of the map entries (in map order)
that do not appear in the depended-upon set. -/
def structuralRoots (m : List (String × Component)) (allDeps : List String) : List String :=
  (m.filter (fun p => !(allDeps.contains p.1))).map (fun p => p.1)

/-- Marking pass paired with root inference: each component whose id is
not depended upon gets `isDirect := true`. -/
def markStructuralRoots (m : List (String × Component)) (allDeps : List String) :
    List (String × Component) :=
  m.map (fun p => (p.1, if allDeps.contains p.1 then p.2 else { p.2 with isDirect := true }))

/-- Inner loop of direct propagation: mark each resolvable id of `deps`
as direct. -/
def markDeps (m : List (String × Component)) (deps : List String) : List (String × Component) :=
  deps.foldl (fun acc depId =>
    match mapGet acc depId with
    | some dep => mapSet acc depId { dep with isDirect := true }
    | none => acc) m

/-- Direct propagation: for each root (when resolvable), mark each
resolvable target of its `dependencies` list as direct — exactly one hop,
no transitive closure. -/
def markDirect (m : List (String × Component)) (roots : List String) : List (String × Component) :=
  roots.foldl (fun acc rootId =>
    match mapGet acc rootId with
    | some root => markDeps acc root.dependencies
    | none => acc) m

/-- Degenerate fallback: when no root was inferred, every component
becomes direct and its `id` field is pushed onto the root list. -/
def applyFallback (m : List (String × Component)) (roots : List String) :
    List (String × Component) × List String :=
  if roots.length = 0 then
    (m.map (fun p => (p.1, { p.2 with isDirect := true })), m.map (fun p => p.2.id))
  else (m, roots)

/-- `Array.from(componentsMap.values()).filter(c => c.isDirect).length`. -/
def directCountOf (m : List (String × Component)) : Nat :=
  ((m.map Prod.snd).filter (fun c => c.isDirect)).length

/-- The depended-upon set of the accumulated graph. -/
def depTargets (st : MergeState) : List String :=
  allDependencies st.dependencyGraph

/-- The component map after edge application. -/
def edgeAppliedMap (st : MergeState) : List (String × Component) :=
  applyEdges st.componentsMap st.dependencyGraph

/-- The structurally inferred root list (before the fallback). -/
def inferredRoots (st : MergeState) : List String :=
  structuralRoots (edgeAppliedMap st) (depTargets st)

/-- The component map after the root-marking pass. -/
def rootMarkedMap (st : MergeState) : List (String × Component) :=
  markStructuralRoots (edgeAppliedMap st) (depTargets st)

/-- The component map after one-hop direct propagation. -/
def directMarkedMap (st : MergeState) : List (String × Component) :=
  markDirect (rootMarkedMap st) (inferredRoots st)

/-- The final component map and root list, after the degenerate fallback. -/
def finalPair (st : MergeState) : List (String × Component) × List String :=
  applyFallback (directMarkedMap st) (inferredRoots st)

/-- The post-loop phases: edge application, root inference and marking,
one-hop direct propagation, degenerate fallback, aggregate counts. -/
def finishMerge (st : MergeState) : ParsedSBOM :=
  { projectName := st.projectName
    timestamp := st.timestamp
    components := (finalPair st).1
    rootComponents := (finalPair st).2
    totalComponents := (finalPair st).1.length
    directCount := directCountOf (finalPair st).1
    transitiveCount := (finalPair st).1.length - directCountOf (finalPair st).1 }

/-- The merge of a batch of successfully parsed documents. -/
def mergeSBOMs (files : List SBOMFile) (now : String) : ParsedSBOM :=
  finishMerge (mergeState files now)

/-- The sequential `JSON.parse` loop over input texts, each text embedded
by its parse outcome; the first malformed input aborts the whole batch
with its index. -/
def parseAllFrom : Nat → List (Option SBOMFile) → Except Nat (List SBOMFile)
  | _, [] => Except.ok []
  | i, none :: _ => Except.error i
  | i, some f :: rest => (parseAllFrom (i + 1) rest).map (fun fs => f :: fs)

/-- The whole engine: parse every input (failing the batch at the first
malformed one), then merge. -/
def parseSBOMFiles (docs : List (Option SBOMFile)) (now : String) : Except Nat ParsedSBOM :=
  (parseAllFrom 0 docs).map (fun fs => mergeSBOMs fs now)

/-- All raw component records of a batch, in processing order. -/
def allRecords (files : List SBOMFile) : List RawComponent :=
  files.flatMap (fun f => f.components.getD [])

/-- All raw dependency edge records of a batch, in processing order. -/
def allEdges (files : List SBOMFile) : List RawDependency :=
  files.flatMap (fun f => f.dependencies.getD [])

/-- The scalar fields of a merged component (everything the seeding
determines and later phases never touch). -/
def scalars (c : Component) : String × String × String × Option String × String × String :=
  (c.name, c.version, c.type, c.purl, c.license, c.path)

/-- Does some root of `roots`, resolved in `m`, list `id` among its
dependencies?  (The condition under which one-hop propagation marks
`id` direct.) -/
def isDep (m : List (String × Component)) (roots : List String) (id : String) : Bool :=
  roots.any (fun r =>
    match mapGet m r with
    | some root => root.dependencies.contains id
    | none => false)


/-! ## Concrete input documents used to evaluate the engine -/

/-- A raw component record with only the identity fields populated. -/
def rawOf (r nm v : String) : RawComponent :=
  { bomRef := some r
    type := "library"
    name := nm
    version := v
    cpe := none
    purl := none
    properties := none
    licenses := none }

/-- A document with the given component and dependency records and no metadata. -/
def docOf (cs : List RawComponent) (ds : List RawDependency) : SBOMFile :=
  { bomFormat := "CycloneDX"
    specVersion := "1.5"
    serialNumber := "urn:uuid:doc"
    version := 1
    metadata := none
    components := some cs
    dependencies := some ds }

/-- Components R and X plus an edge whose ref ("ghost") matches no component
and whose target is X. -/
def docGhost : SBOMFile :=
  docOf [rawOf "R" "r-pkg" "1.0", rawOf "X" "x-pkg" "1.0"]
    [{ ref := "ghost", dependsOn := some ["X"] }]

/-- A two-component dependency cycle A -> B -> A. -/
def docCycle : SBOMFile :=
  docOf [rawOf "A" "a-pkg" "1.0", rawOf "B" "b-pkg" "1.0"]
    [{ ref := "A", dependsOn := some ["B"] }, { ref := "B", dependsOn := some ["A"] }]

/-- Root R depending on A and B, with A depending on C. -/
def docChain : SBOMFile :=
  docOf [rawOf "R" "r-pkg" "1.0", rawOf "A" "a-pkg" "1.0",
         rawOf "B" "b-pkg" "1.0", rawOf "C" "c-pkg" "1.0"]
    [{ ref := "R", dependsOn := some ["A", "B"] }, { ref := "A", dependsOn := some ["C"] }]

/-- A single component, no edges, no metadata (hence no declared timestamp). -/
def docPlain : SBOMFile :=
  docOf [rawOf "R" "r-pkg" "1.0"] []

/-- A component X with an edge to a target Y that has no component record. -/
def docDangling : SBOMFile :=
  docOf [rawOf "X" "x-pkg" "1.0"] [{ ref := "X", dependsOn := some ["Y"] }]

/-- A document declaring a metadata component name and nothing else. -/
def docNamed (nm : String) : SBOMFile :=
  { bomFormat := "CycloneDX"
    specVersion := "1.5"
    serialNumber := "urn:uuid:named"
    version := 1
    metadata := some
      { timestamp := none
        component := some { bomRef := "root", type := "application", name := nm, version := none } }
    components := some []
    dependencies := none }

/-- A document declaring a metadata timestamp. -/
def docStamped : SBOMFile :=
  { bomFormat := "CycloneDX"
    specVersion := "1.5"
    serialNumber := "urn:uuid:stamped"
    version := 1
    metadata := some { timestamp := some "2024-05-05T00:00:00Z", component := none }
    components := some [rawOf "R" "r-pkg" "1.0"]
    dependencies := none }

/-- The merged component for R in the batch `[docChain]`. -/
def compChainR : Component :=
  { id := "R", name := "r-pkg", version := "1.0", type := "library", purl := none,
    license := "Unknown", isDirect := true, vulnerabilities := [],
    dependencies := ["A", "B"], path := "" }

/-- The merged component for A in the batch `[docChain]`. -/
def compChainA : Component :=
  { id := "A", name := "a-pkg", version := "1.0", type := "library", purl := none,
    license := "Unknown", isDirect := true, vulnerabilities := [],
    dependencies := ["C"], path := "" }

/-- The merged component for B in the batch `[docChain]`. -/
def compChainB : Component :=
  { id := "B", name := "b-pkg", version := "1.0", type := "library", purl := none,
    license := "Unknown", isDirect := true, vulnerabilities := [],
    dependencies := [], path := "" }

/-- The merged component for C in the batch `[docChain]`. -/
def compChainC : Component :=
  { id := "C", name := "c-pkg", version := "1.0", type := "library", purl := none,
    license := "Unknown", isDirect := false, vulnerabilities := [],
    dependencies := [], path := "" }

/-! ## Basic lemmas about the embedded Map and Set operations -/

theorem mapGet_isSome_iff_mapHas {α : Type} (m : List (String × α)) (k : String) :
    (mapGet m k).isSome = mapHas m k := by
  induction m with
  | nil => rfl
  | cons p rest ih =>
    cases hp : (p.1 == k) with
    | true => simp [mapGet, mapHas, List.find?, hp]
    | false =>
      simp only [mapGet, mapHas, List.find?, hp, List.any_cons, Bool.false_or]
      simpa [mapGet, mapHas] using ih

theorem mapHas_iff_mem_keys {α : Type} (m : List (String × α)) (k : String) :
    mapHas m k = true ↔ k ∈ m.map Prod.fst := by
  simp only [mapHas, List.any_eq_true, List.mem_map, beq_iff_eq]

theorem mapGet_eq_none_iff {α : Type} (m : List (String × α)) (k : String) :
    mapGet m k = none ↔ mapHas m k = false := by
  rw [← mapGet_isSome_iff_mapHas]
  cases mapGet m k <;> simp

theorem mapGet_isSome_of_has {α : Type} (m : List (String × α)) (k : String)
    (h : mapHas m k = true) : ∃ v, mapGet m k = some v := by
  have := mapGet_isSome_iff_mapHas m k
  rw [h] at this
  cases he : mapGet m k with
  | none => rw [he] at this; simp at this
  | some v => exact ⟨v, rfl⟩

theorem mapGet_append_right {α : Type} (m : List (String × α)) (k : String) (e : String × α)
    (h : mapHas m k = false) : mapGet (m ++ [e]) k = mapGet [e] k := by
  induction m with
  | nil => rfl
  | cons p rest ih =>
    simp only [mapHas, List.any_cons, Bool.or_eq_false_iff] at h
    simp only [List.cons_append, mapGet, List.find?, h.1]
    exact ih (by simp [mapHas, h.2])

theorem mapGet_append_left {α : Type} (m : List (String × α)) (k : String) (l : List (String × α))
    (h : mapHas m k = true) : mapGet (m ++ l) k = mapGet m k := by
  induction m with
  | nil => simp [mapHas] at h
  | cons p rest ih =>
    by_cases hp : p.1 == k
    · simp [mapGet, List.find?, hp]
    · simp only [mapHas, List.any_cons, hp, Bool.false_or] at h
      simp only [List.cons_append, mapGet, List.find?, hp]
      exact ih h

theorem mapGet_singleton {α : Type} (k : String) (e : String × α) :
    mapGet [e] k = if e.1 == k then some e.2 else none := by
  by_cases h : e.1 == k <;> simp [mapGet, List.find?, h]

theorem overwrite_get_self {α : Type} (m : List (String × α)) (k : String) (v : α)
    (h : mapHas m k = true) :
    mapGet (m.map (fun p => if p.1 == k then (k, v) else p)) k = some v := by
  induction m with
  | nil => simp [mapHas] at h
  | cons p rest ih =>
    cases hp : (p.1 == k) with
    | true => simp [mapGet, List.find?, hp]
    | false =>
      simp only [mapHas, List.any_cons, hp, Bool.false_or] at h
      simp only [List.map_cons, hp]
      simp only [mapGet, List.find?, Bool.false_eq_true, if_false, hp]
      exact ih h

theorem overwrite_get_other {α : Type} (m : List (String × α)) (k k' : String) (v : α)
    (h : k ≠ k') :
    mapGet (m.map (fun p => if p.1 == k then (k, v) else p)) k' = mapGet m k' := by
  induction m with
  | nil => rfl
  | cons p rest ih =>
    cases hp : (p.1 == k) with
    | true =>
      have hpk : p.1 = k := by simpa using hp
      have h1 : (k == k') = false := by simpa using h
      have h2 : (p.1 == k') = false := by rw [hpk]; simpa using h
      simp only [List.map_cons, hp, if_true, mapGet, List.find?, h1, h2]
      exact ih
    | false =>
      simp only [List.map_cons, hp, Bool.false_eq_true, if_false, mapGet, List.find?]
      cases hk' : (p.1 == k') with
      | true => simp [hk']
      | false =>
        simp only [hk']
        exact ih

theorem mapGet_mapSet_self {α : Type} (m : List (String × α)) (k : String) (v : α) :
    mapGet (mapSet m k v) k = some v := by
  unfold mapSet
  by_cases h : mapHas m k
  · rw [if_pos h]; exact overwrite_get_self m k v h
  · rw [if_neg h]
    rw [mapGet_append_right m k _ (by simpa using h), mapGet_singleton]
    simp

theorem mapGet_mapSet_other {α : Type} (m : List (String × α)) (k k' : String) (v : α)
    (h : k ≠ k') : mapGet (mapSet m k v) k' = mapGet m k' := by
  unfold mapSet
  by_cases hh : mapHas m k
  · rw [if_pos hh]; exact overwrite_get_other m k k' v h
  · rw [if_neg hh]
    by_cases hk' : mapHas m k'
    · exact mapGet_append_left m k' _ hk'
    · rw [mapGet_append_right m k' _ (by simpa using hk'), mapGet_singleton]
      rw [(mapGet_eq_none_iff m k').mpr (by simpa using hk')]
      simp only [if_neg (show ¬((k, v).1 == k') = true by simpa using h)]

theorem keys_mapSet_of_has {α : Type} (m : List (String × α)) (k : String) (v : α)
    (h : mapHas m k = true) : (mapSet m k v).map Prod.fst = m.map Prod.fst := by
  unfold mapSet
  rw [if_pos h, List.map_map]
  apply List.map_congr_left
  intro p _
  cases hp : (p.1 == k) with
  | true =>
    have hpk : p.1 = k := by simpa using hp
    simp [Function.comp, hp, hpk]
  | false => simp [Function.comp, hp]

theorem keys_mapSet_of_not {α : Type} (m : List (String × α)) (k : String) (v : α)
    (h : mapHas m k = false) : (mapSet m k v).map Prod.fst = m.map Prod.fst ++ [k] := by
  unfold mapSet
  rw [if_neg (by simp [h])]
  simp

/-! ## Decomposition of the per-document merge loop -/

theorem mergeState_eq_foldl (files : List SBOMFile) (now : String) :
    mergeState files now = files.foldl processFile (initState now) := rfl

theorem foldl_processFile_componentsMap (files : List SBOMFile) (st : MergeState) :
    (files.foldl processFile st).componentsMap
      = (files.flatMap (fun f => f.components.getD [])).foldl addComponent st.componentsMap := by
  induction files generalizing st with
  | nil => rfl
  | cons f fs ih =>
    simp only [List.foldl_cons, List.flatMap_cons, List.foldl_append]
    rw [ih]
    rfl

theorem foldl_processFile_dependencyGraph (files : List SBOMFile) (st : MergeState) :
    (files.foldl processFile st).dependencyGraph
      = (files.flatMap (fun f => f.dependencies.getD [])).foldl addEdge st.dependencyGraph := by
  induction files generalizing st with
  | nil => rfl
  | cons f fs ih =>
    simp only [List.foldl_cons, List.flatMap_cons, List.foldl_append]
    rw [ih]
    rfl

theorem mergeState_componentsMap (files : List SBOMFile) (now : String) :
    (mergeState files now).componentsMap = (allRecords files).foldl addComponent [] :=
  foldl_processFile_componentsMap files (initState now)

theorem mergeState_dependencyGraph (files : List SBOMFile) (now : String) :
    (mergeState files now).dependencyGraph = (allEdges files).foldl addEdge [] :=
  foldl_processFile_dependencyGraph files (initState now)

/-! ## Characterization of the accumulated component map:
first occurrence wins, later duplicates are no-ops -/

theorem foldl_addComponent_get (recs : List RawComponent) (m : List (String × Component))
    (id : String) :
    mapGet (recs.foldl addComponent m) id =
      match mapGet m id with
      | some c => some c
      | none => (recs.find? (fun rc => componentId rc == id)).map (fun rc => seedComponent id rc) := by
  induction recs generalizing m with
  | nil => cases h : mapGet m id <;> simp [h]
  | cons rc rest ih =>
    simp only [List.foldl_cons]
    by_cases hh : mapHas m (componentId rc)
    · have hstep : addComponent m rc = m := by simp [addComponent, hh]
      rw [hstep, ih]
      by_cases hq : componentId rc = id
      · obtain ⟨v, hv⟩ := mapGet_isSome_of_has m (componentId rc) hh
        rw [hq] at hv
        simp [hv, List.find?]
      · have : (componentId rc == id) = false := by simpa using hq
        simp only [List.find?, this]
    · have hstep : addComponent m rc = m ++ [(componentId rc, seedComponent (componentId rc) rc)] := by
        simp [addComponent, hh]
      rw [hstep, ih]
      by_cases hq : componentId rc = id
      · have hnone : mapGet m id = none := by
          rw [mapGet_eq_none_iff]
          rw [← hq]
          simpa using hh
        have hget : mapGet (m ++ [(componentId rc, seedComponent (componentId rc) rc)]) id
            = some (seedComponent id rc) := by
          rw [← hq] at hnone ⊢
          rw [mapGet_append_right m _ _ ((mapGet_eq_none_iff m _).mp hnone), mapGet_singleton]
          simp
        have : (componentId rc == id) = true := by simpa using hq
        simp [hget, hnone, List.find?, this]
      · have hne : (componentId rc == id) = false := by simpa using hq
        have hget : mapGet (m ++ [(componentId rc, seedComponent (componentId rc) rc)]) id
            = mapGet m id := by
          by_cases hid : mapHas m id
          · exact mapGet_append_left m id _ hid
          · rw [mapGet_append_right m id _ (by simpa using hid), mapGet_singleton]
            rw [(mapGet_eq_none_iff m id).mpr (by simpa using hid)]
            simp [hne]
        rw [hget]
        simp only [List.find?, hne]

theorem mergeState_get (files : List SBOMFile) (now : String) (id : String) :
    mapGet (mergeState files now).componentsMap id =
      ((allRecords files).find? (fun rc => componentId rc == id)).map
        (fun rc => seedComponent id rc) := by
  rw [mergeState_componentsMap, foldl_addComponent_get]
  rfl

theorem mergeState_get_seed (files : List SBOMFile) (now : String) (id : String) (c : Component)
    (h : mapGet (mergeState files now).componentsMap id = some c) :
    ∃ rc, (allRecords files).find? (fun rc => componentId rc == id) = some rc
      ∧ c = seedComponent id rc := by
  rw [mergeState_get] at h
  cases hf : (allRecords files).find? (fun rc => componentId rc == id) with
  | none => rw [hf] at h; simp at h
  | some rc =>
    rw [hf] at h
    exact ⟨rc, rfl, by simpa using h.symm⟩

/-! ## Lemmas about edge accumulation -/

theorem contains_iff_mem (s : List String) (y : String) :
    s.contains y = true ↔ y ∈ s := by
  induction s with
  | nil => simp
  | cons a l ih =>
    rw [List.contains_cons]
    simp [Bool.or_eq_true, beq_iff_eq, ih, List.mem_cons]

theorem mem_setAdd (s : List String) (x y : String) :
    y ∈ setAdd s x ↔ y ∈ s ∨ y = x := by
  unfold setAdd
  by_cases h : s.contains x = true
  · rw [if_pos h]
    constructor
    · exact Or.inl
    · rintro (hy | rfl)
      · exact hy
      · exact (contains_iff_mem s y).mp h
  · rw [if_neg h]
    simp

theorem mem_foldl_setAdd (ts : List String) (s : List String) (y : String) :
    y ∈ ts.foldl setAdd s ↔ y ∈ s ∨ y ∈ ts := by
  induction ts generalizing s with
  | nil => simp
  | cons t ts' ih =>
    simp only [List.foldl_cons]
    rw [ih, mem_setAdd]
    simp [or_assoc]

theorem keys_addEdge_nodup (d : RawDependency) (g : List (String × List String))
    (h : (g.map Prod.fst).Nodup) : ((addEdge g d).map Prod.fst).Nodup := by
  unfold addEdge
  cases d.dependsOn with
  | none => exact h
  | some targets =>
    by_cases hh : mapHas g d.ref
    · rw [keys_mapSet_of_has _ _ _ hh]
      exact h
    · rw [keys_mapSet_of_not _ _ _ (by simpa using hh)]
      have hnotmem : d.ref ∉ g.map Prod.fst := by
        rw [← mapHas_iff_mem_keys]
        simpa using hh
      simp [List.nodup_append, h, hnotmem]

theorem foldl_addEdge_nodup (edges : List RawDependency) (g : List (String × List String))
    (h : (g.map Prod.fst).Nodup) : ((edges.foldl addEdge g).map Prod.fst).Nodup := by
  induction edges generalizing g with
  | nil => exact h
  | cons d rest ih =>
    simp only [List.foldl_cons]
    exact ih _ (keys_addEdge_nodup d g h)

theorem mergeState_graph_nodup (files : List SBOMFile) (now : String) :
    (((mergeState files now).dependencyGraph).map Prod.fst).Nodup := by
  rw [mergeState_dependencyGraph]
  exact foldl_addEdge_nodup _ [] (by simp)

theorem addEdge_get_preserves (d : RawDependency) (g : List (String × List String))
    (X Y : String) (h : ∃ deps, mapGet g X = some deps ∧ Y ∈ deps) :
    ∃ deps, mapGet (addEdge g d) X = some deps ∧ Y ∈ deps := by
  obtain ⟨deps, hget, hmem⟩ := h
  unfold addEdge
  cases d.dependsOn with
  | none => exact ⟨deps, hget, hmem⟩
  | some targets =>
    by_cases hr : d.ref = X
    · subst hr
      refine ⟨targets.foldl setAdd ((mapGet g d.ref).getD []), mapGet_mapSet_self _ _ _, ?_⟩
      rw [mem_foldl_setAdd]
      left
      rw [hget]
      exact hmem
    · exact ⟨deps, by rw [mapGet_mapSet_other _ _ _ _ hr]; exact hget, hmem⟩

theorem foldl_addEdge_preserves (edges : List RawDependency) (g : List (String × List String))
    (X Y : String) (h : ∃ deps, mapGet g X = some deps ∧ Y ∈ deps) :
    ∃ deps, mapGet (edges.foldl addEdge g) X = some deps ∧ Y ∈ deps := by
  induction edges generalizing g with
  | nil => exact h
  | cons d rest ih =>
    simp only [List.foldl_cons]
    exact ih _ (addEdge_get_preserves d g X Y h)

theorem foldl_addEdge_mem (edges : List RawDependency) (g : List (String × List String))
    (X Y : String)
    (h : ∃ d ∈ edges, d.ref = X ∧ ∃ ts, d.dependsOn = some ts ∧ Y ∈ ts) :
    ∃ deps, mapGet (edges.foldl addEdge g) X = some deps ∧ Y ∈ deps := by
  induction edges generalizing g with
  | nil => simp at h
  | cons d rest ih =>
    simp only [List.foldl_cons]
    obtain ⟨d', hd', href, ts, hts, hY⟩ := h
    rcases List.mem_cons.mp hd' with rfl | hmem
    · apply foldl_addEdge_preserves
      subst href
      unfold addEdge
      rw [hts]
      refine ⟨ts.foldl setAdd ((mapGet g d'.ref).getD []), mapGet_mapSet_self _ _ _, ?_⟩
      rw [mem_foldl_setAdd]
      exact Or.inr hY
    · exact ih _ ⟨d', hmem, href, ts, hts, hY⟩

theorem mem_allDependencies (g : List (String × List String)) (y : String) :
    y ∈ allDependencies g ↔ ∃ p ∈ g, y ∈ p.2 := by
  have haux : ∀ (gl : List (String × List String)) (s : List String),
      y ∈ gl.foldl (fun acc p => p.2.foldl setAdd acc) s ↔ y ∈ s ∨ ∃ p ∈ gl, y ∈ p.2 := by
    intro gl
    induction gl with
    | nil => simp
    | cons p rest ih =>
      intro s
      simp only [List.foldl_cons]
      rw [ih, mem_foldl_setAdd]
      simp [or_assoc]
  have := haux g []
  simpa [allDependencies] using this

/-! ## Pointwise characterization of the post-loop phases -/

theorem applyEdges_get_not_key (g : List (String × List String))
    (m : List (String × Component)) (id : String) (h : id ∉ g.map Prod.fst) :
    mapGet (applyEdges m g) id = mapGet m id := by
  induction g generalizing m with
  | nil => rfl
  | cons p rest ih =>
    simp only [List.map_cons, List.mem_cons, not_or] at h
    simp only [applyEdges, List.foldl_cons]
    have hstep : ∀ m' : List (String × Component), mapGet
        (match mapGet m' p.1 with
         | some comp => mapSet m' p.1 { comp with dependencies := p.2 }
         | none => m') id = mapGet m' id := by
      intro m'
      cases hc : mapGet m' p.1 with
      | none => rfl
      | some comp => exact mapGet_mapSet_other _ _ _ _ (fun he => h.1 he.symm)
    have := ih (match mapGet m p.1 with
        | some comp => mapSet m p.1 { comp with dependencies := p.2 }
        | none => m) h.2
    simpa [applyEdges] using this.trans (hstep m)

theorem applyEdges_get (g : List (String × List String)) (m : List (String × Component))
    (id : String) (hnd : (g.map Prod.fst).Nodup) :
    mapGet (applyEdges m g) id =
      match mapGet g id with
      | some deps => (mapGet m id).map (fun c => { c with dependencies := deps })
      | none => mapGet m id := by
  induction g generalizing m with
  | nil => rfl
  | cons p rest ih =>
    simp only [List.map_cons, List.nodup_cons] at hnd
    simp only [applyEdges, List.foldl_cons]
    by_cases hp : p.1 = id
    · subst hp
      have hgg : mapGet (p :: rest) p.1 = some p.2 := by
        simp [mapGet, List.find?]
      rw [hgg]
      have hrest : mapGet (applyEdges
          (match mapGet m p.1 with
           | some comp => mapSet m p.1 { comp with dependencies := p.2 }
           | none => m) rest) p.1 = mapGet
          (match mapGet m p.1 with
           | some comp => mapSet m p.1 { comp with dependencies := p.2 }
           | none => m) p.1 :=
        applyEdges_get_not_key rest _ p.1 hnd.1
      rw [show (rest.foldl (fun acc p =>
          match mapGet acc p.1 with
          | some comp => mapSet acc p.1 { comp with dependencies := p.2 }
          | none => acc)
          (match mapGet m p.1 with
           | some comp => mapSet m p.1 { comp with dependencies := p.2 }
           | none => m)) = applyEdges
          (match mapGet m p.1 with
           | some comp => mapSet m p.1 { comp with dependencies := p.2 }
           | none => m) rest from rfl, hrest]
      cases hc : mapGet m p.1 with
      | none => simp [hc]
      | some comp => simp [hc, mapGet_mapSet_self]
    · have hgg : mapGet (p :: rest) id = mapGet rest id := by
        have : (p.1 == id) = false := by simpa using hp
        simp [mapGet, List.find?, this]
      rw [hgg]
      rw [show (rest.foldl (fun acc p =>
          match mapGet acc p.1 with
          | some comp => mapSet acc p.1 { comp with dependencies := p.2 }
          | none => acc)
          (match mapGet m p.1 with
           | some comp => mapSet m p.1 { comp with dependencies := p.2 }
           | none => m)) = applyEdges
          (match mapGet m p.1 with
           | some comp => mapSet m p.1 { comp with dependencies := p.2 }
           | none => m) rest from rfl]
      rw [ih _ hnd.2]
      have hstep : mapGet
          (match mapGet m p.1 with
           | some comp => mapSet m p.1 { comp with dependencies := p.2 }
           | none => m) id = mapGet m id := by
        cases hc : mapGet m p.1 with
        | none => rfl
        | some comp => exact mapGet_mapSet_other _ _ _ _ hp
      rw [hstep]

/-- `mapGet` through an entry-wise value rewrite. -/
theorem mapGet_entry_map (m : List (String × Component)) (f : String → Component → Component)
    (id : String) :
    mapGet (m.map (fun p => (p.1, f p.1 p.2))) id = (mapGet m id).map (f id) := by
  induction m with
  | nil => rfl
  | cons p rest ih =>
    cases hp : (p.1 == id) with
    | true =>
      have : p.1 = id := by simpa using hp
      subst this
      simp [mapGet, List.find?, hp]
    | false =>
      simp only [List.map_cons, mapGet, List.find?, hp]
      exact ih

theorem markStructuralRoots_get (m : List (String × Component)) (aD : List String)
    (id : String) :
    mapGet (markStructuralRoots m aD) id =
      (mapGet m id).map (fun c => if aD.contains id then c else { c with isDirect := true }) :=
  mapGet_entry_map m (fun k c => if aD.contains k then c else { c with isDirect := true }) id

theorem mem_structuralRoots (m : List (String × Component)) (aD : List String) (id : String) :
    id ∈ structuralRoots m aD ↔ id ∈ m.map Prod.fst ∧ ¬ id ∈ aD := by
  unfold structuralRoots
  simp only [List.mem_map, List.mem_filter, Bool.not_eq_true']
  constructor
  · rintro ⟨p, ⟨hp, hc⟩, rfl⟩
    refine ⟨⟨p, hp, rfl⟩, ?_⟩
    intro hmem
    rw [(contains_iff_mem aD p.1).mpr hmem] at hc
    simp at hc
  · rintro ⟨⟨p, hp, rfl⟩, hnmem⟩
    refine ⟨p, ⟨hp, ?_⟩, rfl⟩
    cases hc : aD.contains p.1 with
    | true => exact absurd ((contains_iff_mem aD p.1).mp hc) hnmem
    | false => rfl

theorem markDeps_get (deps : List String) (m : List (String × Component)) (id : String) :
    mapGet (markDeps m deps) id =
      (mapGet m id).map (fun c => if id ∈ deps then { c with isDirect := true } else c) := by
  induction deps generalizing m with
  | nil => cases h : mapGet m id <;> simp [markDeps, h]
  | cons d ds ih =>
    simp only [markDeps, List.foldl_cons]
    rw [show (ds.foldl (fun acc depId =>
        match mapGet acc depId with
        | some dep => mapSet acc depId { dep with isDirect := true }
        | none => acc)
        (match mapGet m d with
         | some dep => mapSet m d { dep with isDirect := true }
         | none => m)) = markDeps
        (match mapGet m d with
         | some dep => mapSet m d { dep with isDirect := true }
         | none => m) ds from rfl, ih]
    have hstep : mapGet
        (match mapGet m d with
         | some dep => mapSet m d { dep with isDirect := true }
         | none => m) id =
        (mapGet m id).map (fun c => if d = id then { c with isDirect := true } else c) := by
      by_cases hd : d = id
      · rw [← hd]
        cases hc : mapGet m d with
        | none => simp [hc]
        | some dep => simp [hc, mapGet_mapSet_self]
      · cases hc : mapGet m d with
        | none =>
          cases hm : mapGet m id <;> simp [hm, hd]
        | some dep =>
          rw [mapGet_mapSet_other _ _ _ _ hd]
          cases hm : mapGet m id <;> simp [hm, hd]
    rw [hstep]
    cases hm : mapGet m id with
    | none => simp
    | some c =>
      by_cases hd : d = id <;> by_cases hds : id ∈ ds <;>
        simp [hd, hds, List.mem_cons, eq_comm] <;>
        rw [if_neg (fun h => hd h.symm)]

/-! ## Characterization of one-hop direct propagation -/

theorem isDep_cons (m : List (String × Component)) (r : String) (rs : List String) (id : String) :
    isDep m (r :: rs) id =
      ((match mapGet m r with
        | some root => root.dependencies.contains id
        | none => false) || isDep m rs id) := by
  simp [isDep, List.any_cons]

theorem isDep_congr (m m' : List (String × Component)) (rs : List String) (id : String)
    (h : ∀ x, (mapGet m' x).map Component.dependencies
      = (mapGet m x).map Component.dependencies) :
    isDep m' rs id = isDep m rs id := by
  induction rs with
  | nil => rfl
  | cons r rs ih =>
    rw [isDep_cons, isDep_cons, ih]
    have hr := h r
    have hhead : (match mapGet m' r with
        | some root => root.dependencies.contains id
        | none => false)
        = (match mapGet m r with
        | some root => root.dependencies.contains id
        | none => false) := by
      cases h1 : mapGet m' r with
      | none =>
        rw [h1] at hr
        cases h2 : mapGet m r with
        | none => rfl
        | some root => rw [h2] at hr; simp at hr
      | some root' =>
        rw [h1] at hr
        cases h2 : mapGet m r with
        | none => rw [h2] at hr; simp at hr
        | some root =>
          rw [h2] at hr
          simp only [Option.map_some'] at hr
          have : root'.dependencies = root.dependencies := by simpa using hr
          simp [this]
    rw [hhead]

theorem markDirect_step_get (m : List (String × Component)) (r id : String) :
    mapGet (match mapGet m r with
            | some root => markDeps m root.dependencies
            | none => m) id =
      (mapGet m id).map (fun c =>
        if (match mapGet m r with
            | some root => root.dependencies.contains id
            | none => false) then { c with isDirect := true } else c) := by
  cases hr : mapGet m r with
  | none => cases hm : mapGet m id <;> simp [hm]
  | some root =>
    rw [markDeps_get]
    cases hm : mapGet m id with
    | none => simp
    | some c =>
      by_cases hmem : id ∈ root.dependencies
      · simp [hmem, (contains_iff_mem _ _).mpr hmem]
      · have hcc : root.dependencies.contains id = false := by
          cases hcc : root.dependencies.contains id with
          | false => rfl
          | true => exact absurd ((contains_iff_mem _ _).mp hcc) hmem
        simp [hmem, hcc]

theorem markDirect_step_deps (m : List (String × Component)) (r : String) (x : String) :
    (mapGet (match mapGet m r with
             | some root => markDeps m root.dependencies
             | none => m) x).map Component.dependencies
      = (mapGet m x).map Component.dependencies := by
  rw [markDirect_step_get]
  cases hm : mapGet m x with
  | none => rfl
  | some c =>
    cases (match mapGet m r with
           | some root => root.dependencies.contains x
           | none => false) <;> simp

theorem markDirect_get (roots : List String) (m : List (String × Component)) (id : String) :
    mapGet (markDirect m roots) id =
      (mapGet m id).map (fun c => if isDep m roots id then { c with isDirect := true } else c) := by
  induction roots generalizing m with
  | nil => cases hm : mapGet m id <;> simp [markDirect, isDep, hm]
  | cons r rs ih =>
    simp only [markDirect, List.foldl_cons]
    rw [show (rs.foldl (fun acc rootId =>
        match mapGet acc rootId with
        | some root => markDeps acc root.dependencies
        | none => acc)
        (match mapGet m r with
         | some root => markDeps m root.dependencies
         | none => m)) = markDirect
        (match mapGet m r with
         | some root => markDeps m root.dependencies
         | none => m) rs from rfl, ih]
    rw [isDep_congr m _ rs id (markDirect_step_deps m r)]
    rw [markDirect_step_get m r id]
    rw [isDep_cons]
    cases hm : mapGet m id with
    | none => simp
    | some c =>
      cases hb : (match mapGet m r with
          | some root => root.dependencies.contains id
          | none => false) <;>
        cases hb2 : isDep m rs id <;>
          simp

/-! ## Keys are preserved by every post-loop phase -/

theorem keys_applyEdges (g : List (String × List String)) (m : List (String × Component)) :
    (applyEdges m g).map Prod.fst = m.map Prod.fst := by
  induction g generalizing m with
  | nil => rfl
  | cons p rest ih =>
    simp only [applyEdges, List.foldl_cons]
    rw [show (rest.foldl (fun acc p =>
        match mapGet acc p.1 with
        | some comp => mapSet acc p.1 { comp with dependencies := p.2 }
        | none => acc)
        (match mapGet m p.1 with
         | some comp => mapSet m p.1 { comp with dependencies := p.2 }
         | none => m)) = applyEdges
        (match mapGet m p.1 with
         | some comp => mapSet m p.1 { comp with dependencies := p.2 }
         | none => m) rest from rfl, ih]
    cases hc : mapGet m p.1 with
    | none => rfl
    | some comp =>
      apply keys_mapSet_of_has
      rw [← mapGet_isSome_iff_mapHas, hc]
      rfl

theorem keys_markStructuralRoots (m : List (String × Component)) (aD : List String) :
    (markStructuralRoots m aD).map Prod.fst = m.map Prod.fst := by
  unfold markStructuralRoots
  rw [List.map_map]
  rfl

theorem keys_markDeps (deps : List String) (m : List (String × Component)) :
    (markDeps m deps).map Prod.fst = m.map Prod.fst := by
  induction deps generalizing m with
  | nil => rfl
  | cons d ds ih =>
    simp only [markDeps, List.foldl_cons]
    rw [show (ds.foldl (fun acc depId =>
        match mapGet acc depId with
        | some dep => mapSet acc depId { dep with isDirect := true }
        | none => acc)
        (match mapGet m d with
         | some dep => mapSet m d { dep with isDirect := true }
         | none => m)) = markDeps
        (match mapGet m d with
         | some dep => mapSet m d { dep with isDirect := true }
         | none => m) ds from rfl, ih]
    cases hc : mapGet m d with
    | none => rfl
    | some dep =>
      apply keys_mapSet_of_has
      rw [← mapGet_isSome_iff_mapHas, hc]
      rfl

theorem keys_markDirect (roots : List String) (m : List (String × Component)) :
    (markDirect m roots).map Prod.fst = m.map Prod.fst := by
  induction roots generalizing m with
  | nil => rfl
  | cons r rs ih =>
    simp only [markDirect, List.foldl_cons]
    rw [show (rs.foldl (fun acc rootId =>
        match mapGet acc rootId with
        | some root => markDeps acc root.dependencies
        | none => acc)
        (match mapGet m r with
         | some root => markDeps m root.dependencies
         | none => m)) = markDirect
        (match mapGet m r with
         | some root => markDeps m root.dependencies
         | none => m) rs from rfl, ih]
    cases hc : mapGet m r with
    | none => rfl
    | some root => exact keys_markDeps root.dependencies m

theorem keys_applyFallback (m : List (String × Component)) (roots : List String) :
    ((applyFallback m roots).1).map Prod.fst = m.map Prod.fst := by
  unfold applyFallback
  by_cases h : roots.length = 0
  · rw [if_pos h]
    rw [List.map_map]
    rfl
  · rw [if_neg h]

theorem keys_finalPair (st : MergeState) :
    ((finalPair st).1).map Prod.fst = st.componentsMap.map Prod.fst := by
  unfold finalPair directMarkedMap rootMarkedMap edgeAppliedMap
  rw [keys_applyFallback, keys_markDirect, keys_markStructuralRoots, keys_applyEdges]

/-! ## Facts about freshly seeded components -/

theorem seedComponent_isDirect (cid : String) (rc : RawComponent) :
    (seedComponent cid rc).isDirect = false := rfl

theorem seedComponent_dependencies (cid : String) (rc : RawComponent) :
    (seedComponent cid rc).dependencies = [] := rfl

theorem seedComponent_id (cid : String) (rc : RawComponent) :
    (seedComponent cid rc).id = cid := rfl

theorem mergeState_isDirect_false (files : List SBOMFile) (now : String) (id : String)
    (c : Component) (h : mapGet (mergeState files now).componentsMap id = some c) :
    c.isDirect = false := by
  obtain ⟨rc, _, rfl⟩ := mergeState_get_seed files now id c h
  rfl

theorem mergeState_id_field (files : List SBOMFile) (now : String) (id : String)
    (c : Component) (h : mapGet (mergeState files now).componentsMap id = some c) :
    c.id = id := by
  obtain ⟨rc, _, rfl⟩ := mergeState_get_seed files now id c h
  rfl

/-! ## The loop state is independent of the clock except for the timestamp -/

theorem foldl_processFile_agree (files : List SBOMFile) (st1 st2 : MergeState)
    (hc : st1.componentsMap = st2.componentsMap)
    (hg : st1.dependencyGraph = st2.dependencyGraph)
    (hp : st1.projectName = st2.projectName) :
    (files.foldl processFile st1).componentsMap = (files.foldl processFile st2).componentsMap
    ∧ (files.foldl processFile st1).dependencyGraph
        = (files.foldl processFile st2).dependencyGraph
    ∧ (files.foldl processFile st1).projectName = (files.foldl processFile st2).projectName := by
  induction files generalizing st1 st2 with
  | nil => exact ⟨hc, hg, hp⟩
  | cons f fs ih =>
    simp only [List.foldl_cons]
    apply ih
    · simp [processFile, hc]
    · simp [processFile, hg]
    · simp only [processFile]
      cases jsTruthy (metadataName f) <;> simp [hp]

theorem foldl_processFile_timestamp_none (files : List SBOMFile) (st : MergeState)
    (h : ∀ f ∈ files, jsTruthy (metadataTimestamp f) = none) :
    (files.foldl processFile st).timestamp = st.timestamp := by
  induction files generalizing st with
  | nil => rfl
  | cons f fs ih =>
    simp only [List.foldl_cons]
    rw [ih _ (fun g hg => h g (List.mem_cons_of_mem f hg))]
    simp only [processFile]
    rw [h f (List.mem_cons_self f fs)]

theorem foldl_processFile_timestamp_truthy (files : List SBOMFile) (st1 st2 : MergeState)
    (h : ∃ f ∈ files, jsTruthy (metadataTimestamp f) ≠ none) :
    (files.foldl processFile st1).timestamp = (files.foldl processFile st2).timestamp := by
  induction files generalizing st1 st2 with
  | nil => simp at h
  | cons f fs ih =>
    simp only [List.foldl_cons]
    by_cases hfs : ∃ g ∈ fs, jsTruthy (metadataTimestamp g) ≠ none
    · exact ih _ _ hfs
    · push_neg at hfs
      obtain ⟨g, hgmem, hgt⟩ := h
      rcases List.mem_cons.mp hgmem with rfl | hin
      · cases ht : jsTruthy (metadataTimestamp g) with
        | none => exact absurd ht hgt
        | some t =>
          rw [foldl_processFile_timestamp_none fs _ hfs,
            foldl_processFile_timestamp_none fs _ hfs]
          simp [processFile, ht]
      · exact absurd (hfs g hin) (by simpa using hgt)

theorem mergeState_ext (a b : MergeState)
    (h1 : a.componentsMap = b.componentsMap) (h2 : a.dependencyGraph = b.dependencyGraph)
    (h3 : a.projectName = b.projectName) (h4 : a.timestamp = b.timestamp) : a = b := by
  cases a; cases b
  simp_all

/-! ## Fallback characterization and the id-field invariant -/

theorem applyFallback_get (m : List (String × Component)) (roots : List String) (id : String) :
    mapGet (applyFallback m roots).1 id =
      (mapGet m id).map (fun c =>
        if roots.length = 0 then { c with isDirect := true } else c) := by
  unfold applyFallback
  by_cases h : roots.length = 0
  · rw [if_pos h]
    have hmap := mapGet_entry_map m (fun _ c => { c with isDirect := true }) id
    simp only [hmap]
    cases mapGet m id <;> simp [h]
  · rw [if_neg h]
    cases mapGet m id <;> simp [h]

theorem applyFallback_roots (m : List (String × Component)) (roots : List String) :
    (applyFallback m roots).2 =
      if roots.length = 0 then m.map (fun p => p.2.id) else roots := by
  unfold applyFallback
  by_cases h : roots.length = 0
  · rw [if_pos h, if_pos h]
  · rw [if_neg h, if_neg h]

theorem mapGet_mem {α : Type} (m : List (String × α)) (k : String) (v : α)
    (h : mapGet m k = some v) : ∃ q ∈ m, q.1 = k ∧ q.2 = v := by
  unfold mapGet at h
  cases hf : m.find? (fun p => p.1 == k) with
  | none => rw [hf] at h; simp at h
  | some q =>
    rw [hf] at h
    refine ⟨q, List.mem_of_find?_eq_some hf, ?_, by simpa using h⟩
    have := List.find?_some hf
    simpa using this

theorem mapSet_id_entries (m : List (String × Component)) (k : String) (v : Component)
    (hv : v.id = k) (h : ∀ p ∈ m, p.2.id = p.1) :
    ∀ p ∈ mapSet m k v, p.2.id = p.1 := by
  intro p hp
  unfold mapSet at hp
  by_cases hh : mapHas m k
  · rw [if_pos hh] at hp
    obtain ⟨q, hq, hqe⟩ := List.mem_map.mp hp
    by_cases hqk : (q.1 == k) = true
    · rw [if_pos hqk] at hqe
      rw [← hqe]
      exact hv
    · rw [if_neg hqk] at hqe
      rw [← hqe]
      exact h q hq
  · rw [if_neg hh] at hp
    rcases List.mem_append.mp hp with hin | hsing
    · exact h p hin
    · rcases List.mem_singleton.mp hsing with rfl
      exact hv

theorem applyEdges_id_entries (g : List (String × List String))
    (m : List (String × Component)) (h : ∀ p ∈ m, p.2.id = p.1) :
    ∀ p ∈ applyEdges m g, p.2.id = p.1 := by
  induction g generalizing m with
  | nil => exact h
  | cons e rest ih =>
    simp only [applyEdges, List.foldl_cons]
    rw [show (rest.foldl (fun acc p =>
        match mapGet acc p.1 with
        | some comp => mapSet acc p.1 { comp with dependencies := p.2 }
        | none => acc)
        (match mapGet m e.1 with
         | some comp => mapSet m e.1 { comp with dependencies := e.2 }
         | none => m)) = applyEdges
        (match mapGet m e.1 with
         | some comp => mapSet m e.1 { comp with dependencies := e.2 }
         | none => m) rest from rfl]
    apply ih
    cases hc : mapGet m e.1 with
    | none => exact h
    | some comp =>
      apply mapSet_id_entries
      · obtain ⟨q, hq, hq1, hq2⟩ := mapGet_mem m e.1 comp hc
        show comp.id = e.1
        rw [← hq2, h q hq, hq1]
      · exact h

theorem markDeps_id_entries (deps : List String) (m : List (String × Component))
    (h : ∀ p ∈ m, p.2.id = p.1) : ∀ p ∈ markDeps m deps, p.2.id = p.1 := by
  induction deps generalizing m with
  | nil => exact h
  | cons d ds ih =>
    simp only [markDeps, List.foldl_cons]
    rw [show (ds.foldl (fun acc depId =>
        match mapGet acc depId with
        | some dep => mapSet acc depId { dep with isDirect := true }
        | none => acc)
        (match mapGet m d with
         | some dep => mapSet m d { dep with isDirect := true }
         | none => m)) = markDeps
        (match mapGet m d with
         | some dep => mapSet m d { dep with isDirect := true }
         | none => m) ds from rfl]
    apply ih
    cases hc : mapGet m d with
    | none => exact h
    | some dep =>
      apply mapSet_id_entries
      · obtain ⟨q, hq, hq1, hq2⟩ := mapGet_mem m d dep hc
        show dep.id = d
        rw [← hq2, h q hq, hq1]
      · exact h

theorem markDirect_id_entries (roots : List String) (m : List (String × Component))
    (h : ∀ p ∈ m, p.2.id = p.1) : ∀ p ∈ markDirect m roots, p.2.id = p.1 := by
  induction roots generalizing m with
  | nil => exact h
  | cons r rs ih =>
    simp only [markDirect, List.foldl_cons]
    rw [show (rs.foldl (fun acc rootId =>
        match mapGet acc rootId with
        | some root => markDeps acc root.dependencies
        | none => acc)
        (match mapGet m r with
         | some root => markDeps m root.dependencies
         | none => m)) = markDirect
        (match mapGet m r with
         | some root => markDeps m root.dependencies
         | none => m) rs from rfl]
    apply ih
    cases hc : mapGet m r with
    | none => exact h
    | some root => exact markDeps_id_entries root.dependencies m h

theorem markStructuralRoots_id_entries (m : List (String × Component)) (aD : List String)
    (h : ∀ p ∈ m, p.2.id = p.1) : ∀ p ∈ markStructuralRoots m aD, p.2.id = p.1 := by
  intro p hp
  unfold markStructuralRoots at hp
  obtain ⟨q, hq, hqe⟩ := List.mem_map.mp hp
  rw [← hqe]
  show (if aD.contains q.1 = true then q.2 else { q.2 with isDirect := true }).id = q.1
  by_cases hc : aD.contains q.1 = true
  · rw [if_pos hc]
    exact h q hq
  · rw [if_neg hc]
    exact h q hq

theorem foldl_addComponent_id_entries (recs : List RawComponent)
    (m : List (String × Component)) (h : ∀ p ∈ m, p.2.id = p.1) :
    ∀ p ∈ recs.foldl addComponent m, p.2.id = p.1 := by
  induction recs generalizing m with
  | nil => exact h
  | cons rc rest ih =>
    simp only [List.foldl_cons]
    apply ih
    intro p hp
    unfold addComponent at hp
    by_cases hh : mapHas m (componentId rc)
    · rw [if_pos hh] at hp
      exact h p hp
    · rw [if_neg hh] at hp
      rcases List.mem_append.mp hp with hin | hsing
      · exact h p hin
      · rcases List.mem_singleton.mp hsing with rfl
        rfl

theorem directMarkedMap_id_entries (files : List SBOMFile) (now : String) :
    ∀ p ∈ directMarkedMap (mergeState files now), p.2.id = p.1 := by
  unfold directMarkedMap rootMarkedMap edgeAppliedMap
  apply markDirect_id_entries
  apply markStructuralRoots_id_entries
  apply applyEdges_id_entries
  rw [mergeState_componentsMap]
  exact foldl_addComponent_id_entries _ [] (by simp)

/-! ## Composed facts about the final component map -/

theorem mapGet_isSome_of_mem_keys {α : Type} (m : List (String × α)) (id : String)
    (h : id ∈ m.map Prod.fst) : ∃ v, mapGet m id = some v :=
  mapGet_isSome_of_has _ _ ((mapHas_iff_mem_keys _ _).mpr h)

theorem keys_directMarkedMap (st : MergeState) :
    (directMarkedMap st).map Prod.fst = st.componentsMap.map Prod.fst := by
  unfold directMarkedMap rootMarkedMap edgeAppliedMap
  rw [keys_markDirect, keys_markStructuralRoots, keys_applyEdges]

theorem scalars_finalPair (st : MergeState)
    (hnd : (st.dependencyGraph.map Prod.fst).Nodup) (id : String) :
    (mapGet (finalPair st).1 id).map scalars = (mapGet st.componentsMap id).map scalars := by
  unfold finalPair directMarkedMap rootMarkedMap edgeAppliedMap depTargets
  rw [applyFallback_get, markDirect_get, markStructuralRoots_get, applyEdges_get _ _ _ hnd]
  cases hg : mapGet st.dependencyGraph id <;>
    cases hm : mapGet st.componentsMap id <;>
      simp only [Option.map_none', Option.map_some'] <;>
        split_ifs <;> rfl

theorem deps_finalPair (st : MergeState) (id : String) :
    (mapGet (finalPair st).1 id).map Component.dependencies
      = (mapGet (edgeAppliedMap st) id).map Component.dependencies := by
  unfold finalPair directMarkedMap rootMarkedMap
  rw [applyFallback_get, markDirect_get, markStructuralRoots_get]
  cases hm : mapGet (edgeAppliedMap st) id <;>
    simp only [Option.map_none', Option.map_some'] <;>
      split_ifs <;> rfl

theorem deps_directMarkedMap (st : MergeState) (id : String) :
    (mapGet (directMarkedMap st) id).map Component.dependencies
      = (mapGet (edgeAppliedMap st) id).map Component.dependencies := by
  unfold directMarkedMap rootMarkedMap
  rw [markDirect_get, markStructuralRoots_get]
  cases hm : mapGet (edgeAppliedMap st) id <;>
    simp only [Option.map_none', Option.map_some'] <;>
      split_ifs <;> rfl

theorem directCountOf_le (m : List (String × Component)) : directCountOf m ≤ m.length := by
  unfold directCountOf
  calc ((m.map Prod.snd).filter (fun c => c.isDirect)).length
      ≤ (m.map Prod.snd).length := List.length_filter_le _ _
    _ = m.length := List.length_map _ _

theorem mergeSBOMs_components (files : List SBOMFile) (now : String) :
    (mergeSBOMs files now).components = (finalPair (mergeState files now)).1 := rfl

theorem mergeSBOMs_rootComponents (files : List SBOMFile) (now : String) :
    (mergeSBOMs files now).rootComponents = (finalPair (mergeState files now)).2 := rfl

theorem mergeSBOMs_totalComponents (files : List SBOMFile) (now : String) :
    (mergeSBOMs files now).totalComponents = (mergeState files now).componentsMap.length := by
  show (finalPair (mergeState files now)).1.length = _
  have h := congrArg List.length (keys_finalPair (mergeState files now))
  simpa using h

theorem finalPair_roots_struct (st : MergeState) (h : inferredRoots st ≠ []) :
    (finalPair st).2 = inferredRoots st := by
  unfold finalPair
  rw [applyFallback_roots, if_neg]
  simpa [List.length_eq_zero] using h

theorem finalPair_roots_fallback (st : MergeState) (h : inferredRoots st = []) :
    (finalPair st).2 = (directMarkedMap st).map (fun p => p.2.id) := by
  unfold finalPair
  rw [applyFallback_roots, if_pos]
  simp [h]

/-- Every id on the final root list resolves to a component marked direct. -/
theorem helper_roots_direct (files : List SBOMFile) (now : String) (id : String)
    (h : id ∈ (finalPair (mergeState files now)).2) :
    ∃ c, mapGet (finalPair (mergeState files now)).1 id = some c ∧ c.isDirect = true := by
  by_cases hr : inferredRoots (mergeState files now) = []
  · rw [finalPair_roots_fallback _ hr] at h
    obtain ⟨p, hp, hpid⟩ := List.mem_map.mp h
    have hidk : id ∈ (directMarkedMap (mergeState files now)).map Prod.fst := by
      rw [← hpid, directMarkedMap_id_entries files now p hp]
      exact List.mem_map.mpr ⟨p, hp, rfl⟩
    rw [keys_directMarkedMap] at hidk
    obtain ⟨c, hc⟩ := mapGet_isSome_of_mem_keys _ _
      ((keys_finalPair (mergeState files now)).symm ▸ hidk)
    refine ⟨c, hc, ?_⟩
    unfold finalPair at hc
    rw [applyFallback_get] at hc
    have hlen : (inferredRoots (mergeState files now)).length = 0 := by simp [hr]
    cases hdm : mapGet (directMarkedMap (mergeState files now)) id with
    | none => rw [hdm] at hc; simp at hc
    | some c0 =>
      rw [hdm] at hc
      simp only [Option.map_some'] at hc
      rw [if_pos hlen] at hc
      cases hc
      rfl
  · rw [finalPair_roots_struct _ hr] at h
    have hmem := (mem_structuralRoots _ _ _).mp h
    obtain ⟨hkeys, hnad⟩ := hmem
    obtain ⟨c1, hc1⟩ := mapGet_isSome_of_mem_keys _ _ hkeys
    have hcont : (depTargets (mergeState files now)).contains id = false := by
      cases hcc : (depTargets (mergeState files now)).contains id with
      | false => rfl
      | true => exact absurd ((contains_iff_mem _ _).mp hcc) hnad
    have hc2 : mapGet (rootMarkedMap (mergeState files now)) id
        = some { c1 with isDirect := true } := by
      unfold rootMarkedMap
      rw [markStructuralRoots_get, hc1]
      simp only [Option.map_some']
      rw [if_neg (by simpa using hnad)]
    have hc3 : ∃ c3, mapGet (directMarkedMap (mergeState files now)) id = some c3
        ∧ c3.isDirect = true := by
      unfold directMarkedMap
      rw [markDirect_get, hc2]
      simp only [Option.map_some']
      split_ifs <;> exact ⟨_, rfl, rfl⟩
    obtain ⟨c3, hc3g, hc3d⟩ := hc3
    unfold finalPair
    rw [applyFallback_get, hc3g]
    simp only [Option.map_some']
    split_ifs <;> exact ⟨_, rfl, by simp [hc3d]⟩

/-! ## The sequential parse loop -/

theorem parseAllFrom_ok (files : List SBOMFile) (i : Nat) :
    parseAllFrom i (files.map Option.some) = Except.ok files := by
  induction files generalizing i with
  | nil => rfl
  | cons f fs ih =>
    show (parseAllFrom (i + 1) (fs.map Option.some)).map (fun l => f :: l) = Except.ok (f :: fs)
    rw [ih]
    rfl

theorem parseAllFrom_error (docs : List (Option SBOMFile)) (i : Nat)
    (h : docs.any Option.isNone = true) :
    ∃ j, parseAllFrom i docs = Except.error (i + j) ∧ docs.get? j = some none
      ∧ ∀ k, k < j → docs.get? k ≠ some none := by
  induction docs generalizing i with
  | nil => simp at h
  | cons d rest ih =>
    cases d with
    | none =>
      refine ⟨0, by simp [parseAllFrom], rfl, ?_⟩
      intro k hk
      exact absurd hk (Nat.not_lt_zero k)
    | some f =>
      have hrest : rest.any Option.isNone = true := by
        simpa [List.any_cons] using h
      obtain ⟨j, hj, hget, hmin⟩ := ih (i + 1) hrest
      refine ⟨j + 1, ?_, by simpa using hget, ?_⟩
      · have hidx : (i + 1) + j = i + (j + 1) := by omega
        simp only [parseAllFrom, hj]
        rw [hidx]
        rfl
      · intro k hk
        cases k with
        | zero => simp
        | succ k' =>
          have : k' < j := by omega
          simpa using hmin k' this

/-! ## Idempotence helpers -/

theorem mapHas_foldl_addComponent_of_mem (recs : List RawComponent)
    (m : List (String × Component)) (rc : RawComponent) (h : rc ∈ recs) :
    mapHas (recs.foldl addComponent m) (componentId rc) = true := by
  rw [← mapGet_isSome_iff_mapHas, foldl_addComponent_get]
  cases hm : mapGet m (componentId rc) with
  | some c => rfl
  | none =>
    have : (recs.find? (fun x => componentId x == componentId rc)).isSome := by
      rw [List.find?_isSome]
      exact ⟨rc, h, by simp⟩
    simpa using this

theorem foldl_addComponent_noop (recs : List RawComponent) (m : List (String × Component))
    (h : ∀ rc ∈ recs, mapHas m (componentId rc) = true) :
    recs.foldl addComponent m = m := by
  induction recs with
  | nil => rfl
  | cons rc rest ih =>
    simp only [List.foldl_cons]
    have hstep : addComponent m rc = m := by
      simp [addComponent, h rc (List.mem_cons_self rc rest)]
    rw [hstep]
    exact ih (fun x hx => h x (List.mem_cons_of_mem rc hx))

theorem finalPair_map_struct (st : MergeState) (h : inferredRoots st ≠ []) :
    (finalPair st).1 = directMarkedMap st := by
  unfold finalPair applyFallback
  rw [if_neg]
  simpa [List.length_eq_zero] using h

theorem isDep_true_iff (m : List (String × Component)) (roots : List String) (id : String) :
    isDep m roots id = true
      ↔ ∃ r ∈ roots, ∃ root, mapGet m r = some root ∧ id ∈ root.dependencies := by
  unfold isDep
  rw [List.any_eq_true]
  constructor
  · rintro ⟨r, hr, hcond⟩
    cases hroot : mapGet m r with
    | none => rw [hroot] at hcond; simp at hcond
    | some root =>
      rw [hroot] at hcond
      exact ⟨r, hr, root, hroot, (contains_iff_mem _ _).mp hcond⟩
  · rintro ⟨r, hr, root, hroot, hmem⟩
    refine ⟨r, hr, ?_⟩
    rw [hroot]
    exact (contains_iff_mem _ _).mpr hmem

/-! ## The claims -/

/-- C3: for every merge result (any list of input documents),
`directCount + transitiveCount = totalComponents`, and `totalComponents`
equals the number of entries of the components map. -/
theorem claim_C3_count_invariant (files : List SBOMFile) (now : String) :
    (mergeSBOMs files now).directCount + (mergeSBOMs files now).transitiveCount
      = (mergeSBOMs files now).totalComponents
    ∧ (mergeSBOMs files now).totalComponents = (mergeSBOMs files now).components.length := by
  constructor
  · show directCountOf (finalPair (mergeState files now)).1
      + ((finalPair (mergeState files now)).1.length
          - directCountOf (finalPair (mergeState files now)).1)
      = (finalPair (mergeState files now)).1.length
    exact Nat.add_sub_cancel' (directCountOf_le _)
  · rfl

/-- C5: first occurrence wins for component scalar fields: the merged
component under key `k` carries exactly the scalar fields seeded from the
first raw record (in processing order) whose identity key is `k`; later
records with the same key change no scalar field, and a key with no record
has no entry. -/
theorem claim_C5_first_occurrence_wins (files : List SBOMFile) (now : String) (k : String) :
    (mapGet (mergeSBOMs files now).components k).map scalars
      = ((allRecords files).find? (fun rc => componentId rc == k)).map
          (fun rc => scalars (seedComponent k rc)) := by
  rw [mergeSBOMs_components,
    scalars_finalPair (mergeState files now) (mergeState_graph_nodup files now) k,
    mergeState_get]
  cases (allRecords files).find? (fun rc => componentId rc == k) <;> rfl

/-- C6: the code takes the project name from the LAST document that
declares a truthy metadata component name, not the first: with doc1
declaring "alpha" and doc2 declaring "beta", the merged projectName is
"beta" (and not "alpha"), contradicting the code's own comment
("Extract project name from first file") and the spec. -/
theorem claim_C6_last_name_wins :
    (mergeSBOMs [docNamed "alpha", docNamed "beta"] "t").projectName = "beta"
    ∧ (mergeSBOMs [docNamed "alpha", docNamed "beta"] "t").projectName ≠ "alpha" := by
  constructor
  · rfl
  · decide

/-- C9: merging the same document given twice yields the same
`totalComponents` as merging it once — duplicate records collapse. -/
theorem claim_C9_idempotent_total (d : SBOMFile) (now : String) :
    (mergeSBOMs [d, d] now).totalComponents = (mergeSBOMs [d] now).totalComponents := by
  rw [mergeSBOMs_totalComponents, mergeSBOMs_totalComponents,
    mergeState_componentsMap, mergeState_componentsMap]
  have h1 : allRecords [d, d] = (d.components.getD []) ++ (d.components.getD []) := by
    simp [allRecords]
  have h2 : allRecords [d] = d.components.getD [] := by
    simp [allRecords]
  rw [h1, h2, List.foldl_append]
  congr 1
  apply foldl_addComponent_noop
  intro rc hrc
  exact mapHas_foldl_addComponent_of_mem _ [] rc hrc

/-- C10 counterexample: the claim "two runs on identical input lists
produce identical Models (including the timestamp)" fails: on a batch
whose single document declares no metadata timestamp, the Model's
timestamp is the ambient clock reading, so runs at two different clock
instants differ. -/
theorem claim_C10_counterexample :
    ¬ (mergeSBOMs [docPlain] "1999-01-01T00:00:00Z"
        = mergeSBOMs [docPlain] "2000-01-01T00:00:00Z") := by
  decide

/-- C10 amended: the engine is a deterministic function of its input list
and the ambient clock; whenever at least one document declares a truthy
metadata timestamp, the result is independent of the clock, so two runs on
identical input lists produce identical Models. -/
theorem claim_C10_amended_deterministic (files : List SBOMFile) (now1 now2 : String)
    (h : ∃ f ∈ files, jsTruthy (metadataTimestamp f) ≠ none) :
    mergeSBOMs files now1 = mergeSBOMs files now2 := by
  have hagree := foldl_processFile_agree files (initState now1) (initState now2) rfl rfl rfl
  have hts := foldl_processFile_timestamp_truthy files (initState now1) (initState now2) h
  have hst : mergeState files now1 = mergeState files now2 :=
    mergeState_ext _ _ hagree.1 hagree.2.1 hagree.2.2 hts
  show finishMerge (mergeState files now1) = finishMerge (mergeState files now2)
  rw [hst]

/-- Witness for the amended C10 at a concrete document with a declared
timestamp and two distinct clock readings. -/
theorem claim_C10_amended_witness :
    (∃ f ∈ [docStamped], jsTruthy (metadataTimestamp f) ≠ none)
    ∧ mergeSBOMs [docStamped] "1999-01-01T00:00:00Z"
        = mergeSBOMs [docStamped] "2000-01-01T00:00:00Z" :=
  ⟨by decide,
   claim_C10_amended_deterministic [docStamped] "1999-01-01T00:00:00Z" "2000-01-01T00:00:00Z"
     (by decide)⟩

/-- C8: when some input text is malformed, the whole merge call fails with
a parse error carrying the index of the first malformed input, and no
model is returned (no partial merge can be observed). -/
theorem claim_C8_atomic_parse_failure (docs : List (Option SBOMFile)) (now : String)
    (h : docs.any Option.isNone = true) :
    ∃ j, parseSBOMFiles docs now = Except.error j
      ∧ docs.get? j = some none
      ∧ (∀ k, k < j → docs.get? k ≠ some none)
      ∧ (∀ model, parseSBOMFiles docs now ≠ Except.ok model) := by
  obtain ⟨j, hj, hget, hmin⟩ := parseAllFrom_error docs 0 h
  rw [Nat.zero_add] at hj
  refine ⟨j, ?_, hget, hmin, ?_⟩
  · unfold parseSBOMFiles
    rw [hj]
    rfl
  · intro model hmodel
    unfold parseSBOMFiles at hmodel
    rw [hj] at hmodel
    exact Except.noConfusion hmodel

/-- Witness for C8: a batch whose second input is malformed fails with
error index 1 and returns no model. -/
theorem claim_C8_witness :
    ([Option.some docPlain, none].any Option.isNone = true)
    ∧ ∃ j, parseSBOMFiles [Option.some docPlain, none] "t" = Except.error j
        ∧ [Option.some docPlain, none].get? j = some none
        ∧ (∀ k, k < j → [Option.some docPlain, none].get? k ≠ some none)
        ∧ (∀ model, parseSBOMFiles [Option.some docPlain, none] "t" ≠ Except.ok model) :=
  ⟨by decide, claim_C8_atomic_parse_failure [Option.some docPlain, none] "t" (by decide)⟩

/-- C7: dangling edges are safe: if some document carries an edge with ref
X whose targets include Y, X has a component record and Y has none, the
merge still succeeds (total, no throw), the lookup of Y in the result is
absent, and X's merged dependencies still contain Y. -/
theorem claim_C7_dangling_edge_safe (files : List SBOMFile) (now : String) (X Y : String)
    (hedge : ∃ f ∈ files, ∃ d ∈ f.dependencies.getD [],
        d.ref = X ∧ Y ∈ d.dependsOn.getD [])
    (hXrec : ∃ rc ∈ allRecords files, componentId rc = X)
    (hYrec : ∀ rc ∈ allRecords files, componentId rc ≠ Y) :
    parseSBOMFiles (files.map Option.some) now = Except.ok (mergeSBOMs files now)
    ∧ mapGet (mergeSBOMs files now).components Y = none
    ∧ ∃ xc, mapGet (mergeSBOMs files now).components X = some xc ∧ Y ∈ xc.dependencies := by
  refine ⟨?_, ?_, ?_⟩
  · unfold parseSBOMFiles
    rw [parseAllFrom_ok]
    rfl
  · have hfind : (allRecords files).find? (fun rc => componentId rc == Y) = none :=
      List.find?_eq_none.mpr (fun rc hrc => by simpa using hYrec rc hrc)
    have hcmY : mapGet (mergeState files now).componentsMap Y = none := by
      rw [mergeState_get, hfind]
      rfl
    rw [mergeSBOMs_components, mapGet_eq_none_iff]
    cases hB : mapHas (finalPair (mergeState files now)).1 Y with
    | false => rfl
    | true =>
      have hk := (mapHas_iff_mem_keys _ _).mp hB
      rw [keys_finalPair] at hk
      obtain ⟨v, hv⟩ := mapGet_isSome_of_mem_keys _ _ hk
      rw [hcmY] at hv
      exact Option.noConfusion hv
  · obtain ⟨f, hf, d, hd, hdref, hYts⟩ := hedge
    have hedge2 : ∃ d2 ∈ allEdges files, d2.ref = X
        ∧ ∃ ts2, d2.dependsOn = some ts2 ∧ Y ∈ ts2 := by
      refine ⟨d, List.mem_flatMap.mpr ⟨f, hf, hd⟩, hdref, ?_⟩
      cases hdep : d.dependsOn with
      | none => rw [hdep] at hYts; simp at hYts
      | some ts => exact ⟨ts, rfl, by rw [hdep] at hYts; simpa using hYts⟩
    obtain ⟨deps, hgX, hYdeps⟩ := foldl_addEdge_mem (allEdges files) [] X Y hedge2
    have hgX2 : mapGet (mergeState files now).dependencyGraph X = some deps := by
      rw [mergeState_dependencyGraph]
      exact hgX
    obtain ⟨rc, hrcmem, hrcX⟩ := hXrec
    have hhasX : mapHas (mergeState files now).componentsMap X = true := by
      rw [mergeState_componentsMap, ← hrcX]
      exact mapHas_foldl_addComponent_of_mem _ [] rc hrcmem
    obtain ⟨c0, hc0⟩ := mapGet_isSome_of_has _ _ hhasX
    have hm1 : mapGet (edgeAppliedMap (mergeState files now)) X
        = some { c0 with dependencies := deps } := by
      unfold edgeAppliedMap
      rw [applyEdges_get _ _ _ (mergeState_graph_nodup files now), hgX2, hc0]
      rfl
    have hdeps := deps_finalPair (mergeState files now) X
    rw [hm1] at hdeps
    rw [mergeSBOMs_components]
    cases hfin : mapGet (finalPair (mergeState files now)).1 X with
    | none => rw [hfin] at hdeps; simp at hdeps
    | some xc =>
      rw [hfin] at hdeps
      simp only [Option.map_some'] at hdeps
      have hxc : xc.dependencies = deps := by simpa using hdeps
      exact ⟨xc, rfl, hxc ▸ hYdeps⟩

/-- Witness for C7 at a concrete batch: X -> Y with no record for Y. -/
theorem claim_C7_witness :
    parseSBOMFiles ([docDangling].map Option.some) "t"
        = Except.ok (mergeSBOMs [docDangling] "t")
    ∧ mapGet (mergeSBOMs [docDangling] "t").components "Y" = none
    ∧ ∃ xc, mapGet (mergeSBOMs [docDangling] "t").components "X" = some xc
        ∧ "Y" ∈ xc.dependencies :=
  claim_C7_dangling_edge_safe [docDangling] "t" "X" "Y" (by decide) (by decide) (by decide)

/-- C1 counterexample: the claim "a component is a root (appended to
rootComponents and marked direct) iff its id does not appear as a
dependency target of some component in the merged component map" is false
on the code: (1) with `docGhost`, X is depended on only by an edge whose
ref matches no component, so no component of the map carries X among its
dependencies, yet X is not a root; (2) with `docCycle`, the fallback makes
A a root although component B depends on A. -/
theorem claim_C1_counterexample :
    ¬ (∀ p ∈ (mergeSBOMs [docGhost] "t").components,
        ((p.1 ∈ (mergeSBOMs [docGhost] "t").rootComponents ∧ p.2.isDirect = true)
          ↔ ¬ ∃ q ∈ (mergeSBOMs [docGhost] "t").components, p.1 ∈ q.2.dependencies))
    ∧ ¬ (∀ p ∈ (mergeSBOMs [docCycle] "t").components,
        ((p.1 ∈ (mergeSBOMs [docCycle] "t").rootComponents ∧ p.2.isDirect = true)
          ↔ ¬ ∃ q ∈ (mergeSBOMs [docCycle] "t").components, p.1 ∈ q.2.dependencies)) := by
  decide

/-- C1 amended: an id is appended by STRUCTURAL root inference iff it is a
key of the merged map and does not appear among the dependency targets of
any accumulated edge record (dangling-ref edges included); the final root
list is the structural one when it is non-empty and otherwise the fallback
appends every component's id; and every final root resolves to a component
marked `isDirect = true`. -/
theorem claim_C1_amended_roots (files : List SBOMFile) (now : String) (id : String) :
    (id ∈ inferredRoots (mergeState files now)
      ↔ (id ∈ (mergeState files now).componentsMap.map Prod.fst
          ∧ id ∉ depTargets (mergeState files now)))
    ∧ (inferredRoots (mergeState files now) ≠ [] →
        (mergeSBOMs files now).rootComponents = inferredRoots (mergeState files now))
    ∧ (inferredRoots (mergeState files now) = [] →
        (mergeSBOMs files now).rootComponents
          = (mergeSBOMs files now).components.map (fun p => p.2.id))
    ∧ (id ∈ (mergeSBOMs files now).rootComponents →
        ∃ c, mapGet (mergeSBOMs files now).components id = some c ∧ c.isDirect = true) := by
  refine ⟨?_, ?_, ?_, ?_⟩
  · unfold inferredRoots
    rw [mem_structuralRoots]
    unfold edgeAppliedMap
    rw [keys_applyEdges]
  · intro h
    rw [mergeSBOMs_rootComponents, finalPair_roots_struct _ h]
  · intro h
    have hlen : (inferredRoots (mergeState files now)).length = 0 := by simp [h]
    have hcomp : (finalPair (mergeState files now)).1
        = (directMarkedMap (mergeState files now)).map
            (fun p => (p.1, { p.2 with isDirect := true })) := by
      unfold finalPair applyFallback
      rw [if_pos hlen]
    rw [mergeSBOMs_rootComponents, finalPair_roots_fallback _ h, mergeSBOMs_components, hcomp,
      List.map_map]
    rfl
  · intro h
    rw [mergeSBOMs_rootComponents] at h
    rw [mergeSBOMs_components]
    exact helper_roots_direct files now id h

/-- Witness for the amended C1: on `docChain` the structural-roots
characterization, the non-fallback root list and the root-is-direct
conclusion hold at R; on `docCycle` the fallback equation holds. -/
theorem claim_C1_witness :
    ("R" ∈ inferredRoots (mergeState [docChain] "t")
      ↔ ("R" ∈ (mergeState [docChain] "t").componentsMap.map Prod.fst
          ∧ "R" ∉ depTargets (mergeState [docChain] "t")))
    ∧ (mergeSBOMs [docChain] "t").rootComponents = inferredRoots (mergeState [docChain] "t")
    ∧ (mergeSBOMs [docCycle] "t").rootComponents
        = (mergeSBOMs [docCycle] "t").components.map (fun p => p.2.id)
    ∧ ∃ c, mapGet (mergeSBOMs [docChain] "t").components "R" = some c ∧ c.isDirect = true :=
  ⟨(claim_C1_amended_roots [docChain] "t" "R").1,
   (claim_C1_amended_roots [docChain] "t" "R").2.1 (by decide),
   (claim_C1_amended_roots [docCycle] "t" "A").2.2.1 (by decide),
   (claim_C1_amended_roots [docChain] "t" "R").2.2.2 (by decide)⟩

/-- C4: whenever the merged component map is non-empty the root list has
length at least 1, and when structural inference finds zero roots the
fallback makes every component of the map both direct and a root. -/
theorem claim_C4_root_nonempty (files : List SBOMFile) (now : String) :
    ((mergeSBOMs files now).components ≠ [] →
      1 ≤ (mergeSBOMs files now).rootComponents.length)
    ∧ (inferredRoots (mergeState files now) = [] →
        ∀ p ∈ (mergeSBOMs files now).components,
          p.2.isDirect = true ∧ p.1 ∈ (mergeSBOMs files now).rootComponents) := by
  constructor
  · intro hne
    by_cases hr : inferredRoots (mergeState files now) = []
    · rw [mergeSBOMs_rootComponents, finalPair_roots_fallback _ hr]
      rw [mergeSBOMs_components] at hne
      rw [List.length_map]
      have h1 := congrArg List.length (keys_finalPair (mergeState files now))
      have h2 := congrArg List.length (keys_directMarkedMap (mergeState files now))
      simp only [List.length_map] at h1 h2
      have hne2 : (finalPair (mergeState files now)).1.length ≠ 0 := by
        simpa [List.length_eq_zero] using hne
      omega
    · rw [mergeSBOMs_rootComponents, finalPair_roots_struct _ hr]
      have hpos := List.length_pos.mpr hr
      omega
  · intro hr p hp
    have hlen : (inferredRoots (mergeState files now)).length = 0 := by simp [hr]
    have hcomp : (finalPair (mergeState files now)).1
        = (directMarkedMap (mergeState files now)).map
            (fun q => (q.1, { q.2 with isDirect := true })) := by
      unfold finalPair applyFallback
      rw [if_pos hlen]
    rw [mergeSBOMs_components, hcomp] at hp
    obtain ⟨q, hq, hqe⟩ := List.mem_map.mp hp
    constructor
    · rw [← hqe]
    · rw [mergeSBOMs_rootComponents, finalPair_roots_fallback _ hr, ← hqe]
      exact List.mem_map.mpr ⟨q, hq, directMarkedMap_id_entries files now q hq⟩

/-- Witness for C4 on the cycle batch: the map is non-empty, the root list
is non-empty, structural inference found zero roots, and every component
is direct and a root. -/
theorem claim_C4_witness :
    ((mergeSBOMs [docCycle] "t").components ≠ [])
    ∧ 1 ≤ (mergeSBOMs [docCycle] "t").rootComponents.length
    ∧ (inferredRoots (mergeState [docCycle] "t") = [])
    ∧ ∀ p ∈ (mergeSBOMs [docCycle] "t").components,
        p.2.isDirect = true ∧ p.1 ∈ (mergeSBOMs [docCycle] "t").rootComponents :=
  ⟨by decide, (claim_C4_root_nonempty [docCycle] "t").1 (by decide), by decide,
   (claim_C4_root_nonempty [docCycle] "t").2 (by decide)⟩

/-- C2: direct marking is exactly one hop from roots: for every merge
result with a root R whose dependencies are [A, B], where A's dependencies
are [C] and C is neither a root nor a dependency of any root, A and B are
marked direct while C is not. -/
theorem claim_C2_one_hop (files : List SBOMFile) (now : String) (R A B C : String)
    (rc ac bc cc : Component)
    (hR : R ∈ (mergeSBOMs files now).rootComponents)
    (hrc : mapGet (mergeSBOMs files now).components R = some rc)
    (hrdeps : rc.dependencies = [A, B])
    (hac : mapGet (mergeSBOMs files now).components A = some ac)
    (hadeps : ac.dependencies = [C])
    (hbc : mapGet (mergeSBOMs files now).components B = some bc)
    (hcc : mapGet (mergeSBOMs files now).components C = some cc)
    (hCroot : C ∉ (mergeSBOMs files now).rootComponents)
    (hCdep : ∀ rid ∈ (mergeSBOMs files now).rootComponents,
        ∀ c, mapGet (mergeSBOMs files now).components rid = some c → C ∉ c.dependencies) :
    ac.isDirect = true ∧ bc.isDirect = true ∧ cc.isDirect = false := by
  rw [mergeSBOMs_components] at hrc hac hbc hcc
  rw [mergeSBOMs_rootComponents] at hR hCroot
  simp only [mergeSBOMs_components, mergeSBOMs_rootComponents] at hCdep
  by_cases hr : inferredRoots (mergeState files now) = []
  · exfalso
    apply hCroot
    rw [finalPair_roots_fallback _ hr]
    have hkC : C ∈ (finalPair (mergeState files now)).1.map Prod.fst := by
      rw [← mapHas_iff_mem_keys, ← mapGet_isSome_iff_mapHas, hcc]
      rfl
    rw [keys_finalPair, ← keys_directMarkedMap] at hkC
    obtain ⟨q, hq, hq1⟩ := List.mem_map.mp hkC
    exact List.mem_map.mpr ⟨q, hq, by rw [directMarkedMap_id_entries files now q hq, hq1]⟩
  · have hfin := finalPair_map_struct (mergeState files now) hr
    have hroots := finalPair_roots_struct (mergeState files now) hr
    rw [hfin] at hrc hac hbc hcc
    rw [hroots] at hR hCroot
    rw [hfin, hroots] at hCdep
    unfold directMarkedMap at hrc hac hbc hcc
    rw [markDirect_get] at hrc hac hbc hcc
    obtain ⟨r2, hr2, hr2e⟩ : ∃ r2, mapGet (rootMarkedMap (mergeState files now)) R = some r2
        ∧ rc = (if isDep (rootMarkedMap (mergeState files now))
            (inferredRoots (mergeState files now)) R
          then { r2 with isDirect := true } else r2) := by
      cases hm2 : mapGet (rootMarkedMap (mergeState files now)) R with
      | none => rw [hm2] at hrc; simp at hrc
      | some r2 =>
        rw [hm2] at hrc
        simp only [Option.map_some'] at hrc
        exact ⟨r2, rfl, (Option.some.inj hrc).symm⟩
    have hr2deps : r2.dependencies = [A, B] := by
      rw [← hrdeps, hr2e]
      split_ifs <;> rfl
    have hdepA : isDep (rootMarkedMap (mergeState files now))
        (inferredRoots (mergeState files now)) A = true :=
      (isDep_true_iff _ _ _).mpr ⟨R, hR, r2, hr2, by rw [hr2deps]; simp⟩
    have hdepB : isDep (rootMarkedMap (mergeState files now))
        (inferredRoots (mergeState files now)) B = true :=
      (isDep_true_iff _ _ _).mpr ⟨R, hR, r2, hr2, by rw [hr2deps]; simp⟩
    have hAdir : ac.isDirect = true := by
      cases hm2 : mapGet (rootMarkedMap (mergeState files now)) A with
      | none => rw [hm2] at hac; simp at hac
      | some a2 =>
        rw [hm2] at hac
        simp only [Option.map_some'] at hac
        rw [if_pos hdepA] at hac
        rw [← Option.some.inj hac]
    have hBdir : bc.isDirect = true := by
      cases hm2 : mapGet (rootMarkedMap (mergeState files now)) B with
      | none => rw [hm2] at hbc; simp at hbc
      | some b2 =>
        rw [hm2] at hbc
        simp only [Option.map_some'] at hbc
        rw [if_pos hdepB] at hbc
        rw [← Option.some.inj hbc]
    have hdepC : isDep (rootMarkedMap (mergeState files now))
        (inferredRoots (mergeState files now)) C = false := by
      cases hd : isDep (rootMarkedMap (mergeState files now))
          (inferredRoots (mergeState files now)) C with
      | false => rfl
      | true =>
        exfalso
        obtain ⟨rid, hrid, root, hroot, hCd⟩ := (isDep_true_iff _ _ _).mp hd
        have hfinroot : mapGet (directMarkedMap (mergeState files now)) rid
            = some (if isDep (rootMarkedMap (mergeState files now))
                (inferredRoots (mergeState files now)) rid
              then { root with isDirect := true } else root) := by
          unfold directMarkedMap
          rw [markDirect_get, hroot]
          rfl
        have hmem : C ∈ (if isDep (rootMarkedMap (mergeState files now))
            (inferredRoots (mergeState files now)) rid
          then { root with isDirect := true } else root).dependencies := by
          split_ifs <;> simpa using hCd
        exact hCdep rid hrid _ hfinroot hmem
    have hCdir : cc.isDirect = false := by
      cases hm2 : mapGet (rootMarkedMap (mergeState files now)) C with
      | none => rw [hm2] at hcc; simp at hcc
      | some c2 =>
        rw [hm2] at hcc
        simp only [Option.map_some'] at hcc
        rw [if_neg (by simp [hdepC])] at hcc
        have hc2cc := Option.some.inj hcc
        unfold rootMarkedMap at hm2
        rw [markStructuralRoots_get] at hm2
        cases hm1 : mapGet (edgeAppliedMap (mergeState files now)) C with
        | none => rw [hm1] at hm2; simp at hm2
        | some c1 =>
          rw [hm1] at hm2
          simp only [Option.map_some'] at hm2
          have hc1c2 := Option.some.inj hm2
          by_cases hcont : (depTargets (mergeState files now)).contains C = true
          · rw [if_pos hcont] at hc1c2
            have hm1dir : c1.isDirect = false := by
              unfold edgeAppliedMap at hm1
              rw [applyEdges_get _ _ _ (mergeState_graph_nodup files now)] at hm1
              cases hg : mapGet (mergeState files now).dependencyGraph C with
              | none =>
                rw [hg] at hm1
                exact mergeState_isDirect_false files now C c1 hm1
              | some deps =>
                rw [hg] at hm1
                cases hcm : mapGet (mergeState files now).componentsMap C with
                | none => rw [hcm] at hm1; simp at hm1
                | some c0 =>
                  rw [hcm] at hm1
                  simp only [Option.map_some'] at hm1
                  rw [← Option.some.inj hm1]
                  exact mergeState_isDirect_false files now C c0 hcm
            rw [← hc2cc, ← hc1c2]
            exact hm1dir
          · exfalso
            apply hCroot
            unfold inferredRoots
            rw [mem_structuralRoots]
            constructor
            · rw [← mapHas_iff_mem_keys, ← mapGet_isSome_iff_mapHas, hm1]
              rfl
            · intro hmem
              exact hcont ((contains_iff_mem _ _).mpr hmem)
    exact ⟨hAdir, hBdir, hCdir⟩

/-- Witness for C2 at the concrete chain batch: R is a root with
dependencies [A, B], A depends on [C], C is neither a root nor a root's
dependency; the theorem yields A, B direct and C transitive. -/
theorem claim_C2_witness :
    mapGet (mergeSBOMs [docChain] "t").components "A" = some compChainA
    ∧ mapGet (mergeSBOMs [docChain] "t").components "B" = some compChainB
    ∧ mapGet (mergeSBOMs [docChain] "t").components "C" = some compChainC
    ∧ (compChainA.isDirect = true ∧ compChainB.isDirect = true
        ∧ compChainC.isDirect = false) :=
  ⟨by decide, by decide, by decide,
   claim_C2_one_hop [docChain] "t" "R" "A" "B" "C" compChainR compChainA compChainB compChainC
    (by decide) (by decide) (by decide) (by decide) (by decide) (by decide) (by decide)
    (by decide)
    (by
      intro rid hrid c hc
      have hroots : (mergeSBOMs [docChain] "t").rootComponents = ["R"] := by decide
      rw [hroots] at hrid
      have hrR : rid = "R" := by simpa using hrid
      subst hrR
      have hgetR : mapGet (mergeSBOMs [docChain] "t").components "R" = some compChainR := by
        decide
      rw [hgetR] at hc
      rw [← Option.some.inj hc]
      decide)⟩

end SBOM
